import Mathlib

/-
Verification of the statistical comparison engine of the
2024-publishing-v2-early-assessment repository.

Shallow embedding conventions:
- A pandas Series of raw observations is a `List (Option ℚ)`: `none` is a
  missing or non-numeric entry, `some q` a numeric one.  The boundary
  coercion `pd.to_numeric(s, errors="coerce").dropna()` is `dropna`.
- Float arithmetic is embedded in ℚ.  A float NaN is represented by `none`
  in an `Option ℚ`; IEEE NaN propagation through arithmetic corresponds to
  propagation of `none` through `Option.bind`.  ℚ division is total with
  x / 0 = 0; the float code would produce inf/NaN where a denominator is
  exactly zero (for example both groups constant), and no claim below
  depends on that corner.
- Library-provided irrational numerical primitives (square root, Student-t
  tail quantiles and survival function, the standard normal survival
  function, the chi-square survival function) are taken as function
  parameters of the embedded definitions, following the spec, which treats
  the statistical distributions as external numerical primitives.  All
  properties proved below hold for every instantiation of the parameters.
- np.argsort / sorting is embedded with insertionSort; ties in p-values
  receive equal corrected values (proved below), so the tie-breaking order
  of the sort does not affect any embedded result.
-/

/-- Embedding of the boundary coercion used by every routine of
calculate_basic_pub_stats.py: pd.to_numeric(s, errors="coerce").dropna().
Missing / non-numeric entries (`none`) are removed. -/
def dropna (xs : List (Option ℚ)) : List ℚ := xs.filterMap id

/-- Sample mean of a series, Σx / n (pandas Series.mean).  For the empty
list this is 0 / 0 = 0 in ℚ; callers guard with `seriesMean`. -/
def meanQ (s : List ℚ) : ℚ := s.sum / (s.length : ℚ)

/-- Bessel-corrected sample variance, Σ(x − mean)² / (n − 1)
(pandas Series.var(ddof=1)).  Callers guard n ≥ 2 with `seriesVar`. -/
def varQ (s : List ℚ) : ℚ :=
  (s.map (fun x => (x - meanQ s) ^ 2)).sum / ((s.length : ℚ) - 1)

/-- pandas Series.mean: NaN (here `none`) on an empty series. -/
def seriesMean (s : List ℚ) : Option ℚ :=
  if s.length = 0 then none else some (meanQ s)

/-- pandas Series.var(ddof=1): NaN (here `none`) when n < 2. -/
def seriesVar (s : List ℚ) : Option ℚ :=
  if s.length < 2 then none else some (varQ s)

/-- Floor of a nonnegative rational as a natural number (num.toNat / den).
Used by the linearly interpolated quantile. -/
def floorNat (q : ℚ) : ℕ := q.num.toNat / q.den

/-- pandas Series.quantile with default linear interpolation: position
pos = q·(n−1) in the ascending-sorted values, linearly interpolating
between the neighbouring order statistics. -/
def quantileQ (s : List ℚ) (q : ℚ) : ℚ :=
  let sorted := List.insertionSort (· ≤ ·) s
  let pos := q * ((s.length : ℚ) - 1)
  let i := floorNat pos
  let frac := pos - (i : ℚ)
  sorted.getD i 0 + frac * (sorted.getD (i + 1) (sorted.getD i 0) - sorted.getD i 0)

/-- Result record of calculate_descriptive_stats
(calculate_basic_pub_stats.py, lines 11-43).  `none` embeds np.nan. -/
structure DescriptiveResult where
  n : ℕ
  mean : Option ℚ
  std : Option ℚ
  sem : Option ℚ
  ci_95 : Option (ℚ × ℚ)
  median : Option ℚ
  q1 : Option ℚ
  q3 : Option ℚ
deriving DecidableEq

/-- Embedding of calculate_descriptive_stats
(calculate_basic_pub_stats.py, lines 11-43).
`sqrtQ` embeds the square root; `tppf` embeds
stats.t.ppf(0.975, df), the two-sided 95% Student-t critical value, so
stats.t.interval(0.95, df=n−1, loc=mean, scale=sem) is
(mean − tppf(n−1)·sem, mean + tppf(n−1)·sem);
stats.sem(series, ddof=1) is std / √n. -/
def calculate_descriptive_stats (sqrtQ tppf : ℚ → ℚ) (xs : List (Option ℚ)) :
    DescriptiveResult :=
  let series := dropna xs
  let n := series.length
  if n < 2 then
    ⟨n, none, none, none, none, none, none, none⟩
  else
    let mean := meanQ series
    let std := sqrtQ (varQ series)
    let sem := std / sqrtQ (n : ℚ)
    let tcrit := tppf ((n : ℚ) - 1)
    ⟨n, some mean, some std, some sem,
      some (mean - tcrit * sem, mean + tcrit * sem),
      some (quantileQ series (1 / 2)),
      some (quantileQ series (1 / 4)),
      some (quantileQ series (3 / 4))⟩

/-- Result record of calculate_mean_difference_effects
(calculate_basic_pub_stats.py, lines 82-114).  `none` embeds np.nan
(each CI bound is NaN exactly when the other is, so the pair shares one
Option). -/
structure EffectSizeResult where
  hedges_g : Option ℚ
  glass_delta : Option ℚ
  mean_diff_ci_95 : Option (ℚ × ℚ)
deriving DecidableEq

/-- Embedding of calculate_mean_difference_effects
(calculate_basic_pub_stats.py, lines 82-114).  The float code has no
small-sample guard: with n < 2 the corresponding variance (and with n = 0
the mean) is NaN and NaN propagates through every expression built from
it; here those series statistics are Options and `none` propagates through
the binds.  `sqrtQ` embeds np.sqrt, `tppf` embeds stats.t.ppf(0.975, df)
at the (rational) Welch-Satterthwaite df.  One divergence of the total ℚ
division: when group A is constant (variance 0), the float glass_delta is
0/0 = NaN (equal means) or ±inf, while here the ℚ division by sqrtQ 0
yields a junk rational inside `some`; no theorem below asserts anything
about glass_delta definedness in that corner. -/
def calculate_mean_difference_effects (sqrtQ tppf : ℚ → ℚ)
    (xs ys : List (Option ℚ)) : EffectSizeResult :=
  let s1 := dropna xs
  let s2 := dropna ys
  let n1 : ℚ := s1.length
  let n2 : ℚ := s2.length
  let hedges_g : Option ℚ := do
    let m1 ← seriesMean s1
    let m2 ← seriesMean s2
    let v1 ← seriesVar s1
    let v2 ← seriesVar s2
    let pooled_std := sqrtQ (((n1 - 1) * v1 + (n2 - 1) * v2) / (n1 + n2 - 2))
    let d := (m1 - m2) / pooled_std
    let j := 1 - 3 / (4 * (n1 + n2) - 9)
    some (d * j)
  let glass_delta : Option ℚ := do
    let m1 ← seriesMean s1
    let m2 ← seriesMean s2
    let v1 ← seriesVar s1
    some ((m1 - m2) / sqrtQ v1)
  let mean_diff_ci_95 : Option (ℚ × ℚ) := do
    let m1 ← seriesMean s1
    let m2 ← seriesMean s2
    let v1 ← seriesVar s1
    let v2 ← seriesVar s2
    let se_diff := sqrtQ (v1 / n1 + v2 / n2)
    let df_welch := (v1 / n1 + v2 / n2) ^ 2 /
      (v1 ^ 2 / (n1 ^ 2 * (n1 - 1)) + v2 ^ 2 / (n2 ^ 2 * (n2 - 1)))
    let t_crit := tppf df_welch
    let mean_diff := m1 - m2
    some (mean_diff - t_crit * se_diff, mean_diff + t_crit * se_diff)
  ⟨hedges_g, glass_delta, mean_diff_ci_95⟩

/-- Result record of compare_groups
(calculate_basic_pub_stats.py, lines 62-79).  `none` embeds np.nan. -/
structure ComparisonResult where
  welch_t_p_value : Option ℚ
  mwu_p_value : Option ℚ
deriving DecidableEq

/-- Number of elements of the combined sample strictly below x. -/
def countBelow (c : List ℚ) (x : ℚ) : ℕ :=
  (c.filter (fun y => decide (y < x))).length

/-- One-based midrank of x within the combined sample c (average of the
positions of the tied block containing x). -/
def midrank (c : List ℚ) (x : ℚ) : ℚ :=
  (countBelow c x : ℚ) + ((c.count x : ℚ) + 1) / 2

/-- Rank sum of sample s inside the combined sample c, with midranks for
ties. -/
def rankSum (c s : List ℚ) : ℚ := (s.map (midrank c)).sum

/-- Tie correction term Σ (t³ − t) over the tie-group sizes t of the
combined sample. -/
def tieTerm (c : List ℚ) : ℚ :=
  (c.dedup.map (fun v => ((c.count v : ℚ)) ^ 3 - (c.count v : ℚ))).sum

/-- The two-sided asymptotic (standard-normal approximation) Mann-Whitney
p-value of scipy.stats.mannwhitneyu(s1, s2, alternative="two-sided",
method="asymptotic"): U1 = R1 − n1(n1+1)/2 from midranks, U = max(U1, U2),
tie-corrected sigma, continuity correction 1/2, p = clip(2·sf(z), 0, 1).
`sqrtQ` embeds the square root and `normSF` the standard-normal survival
function. -/
def mannwhitneyuAsymP (sqrtQ normSF : ℚ → ℚ) (s1 s2 : List ℚ) : ℚ :=
  let n1 : ℚ := s1.length
  let n2 : ℚ := s2.length
  let n := n1 + n2
  let combined := s1 ++ s2
  let U1 := rankSum combined s1 - n1 * (n1 + 1) / 2
  let U := max U1 (n1 * n2 - U1)
  let mu := n1 * n2 / 2
  let sigma := sqrtQ (n1 * n2 / 12 * ((n + 1) - tieTerm combined / (n * (n - 1))))
  let z := (U - mu - 1 / 2) / sigma
  min 1 (max 0 (2 * normSF z))

/-- Modelled from the spec: the scipy dependency (whose exact version the
repository does not pin under src/) decides what
scipy.stats.mannwhitneyu does on an empty sample; the spec states that the
Mann-Whitney p-value requires at least one valid observation per group and
that insufficient data is an explicit undefined value, never a thrown
fault.  So an empty group yields `none` and a nonempty pair yields the
asymptotic p-value. -/
def mannwhitneyu (sqrtQ normSF : ℚ → ℚ) (s1 s2 : List ℚ) : Option ℚ :=
  if s1.length = 0 ∨ s2.length = 0 then none
  else some (mannwhitneyuAsymP sqrtQ normSF s1 s2)

/-- Embedding of scipy.stats.ttest_ind(s1, s2, equal_var=False), the
two-sided Welch t-test: NaN (`none`) when either group has n < 2 (its
ddof=1 variance is NaN), otherwise 2·sf(|t|, df) with the
Welch-Satterthwaite df.  `tsf` embeds the Student-t survival function
(df, t) ↦ sf. -/
def ttest_ind_welch (sqrtQ : ℚ → ℚ) (tsf : ℚ → ℚ → ℚ) (s1 s2 : List ℚ) :
    Option ℚ :=
  if s1.length < 2 ∨ s2.length < 2 then none
  else
    let n1 : ℚ := s1.length
    let n2 : ℚ := s2.length
    let v1 := varQ s1
    let v2 := varQ s2
    let se2 := v1 / n1 + v2 / n2
    let t := (meanQ s1 - meanQ s2) / sqrtQ se2
    let df := se2 ^ 2 / (v1 ^ 2 / (n1 ^ 2 * (n1 - 1)) + v2 ^ 2 / (n2 ^ 2 * (n2 - 1)))
    some (2 * tsf df |t|)

/-- Embedding of compare_groups (calculate_basic_pub_stats.py,
lines 62-79): coerce both inputs, run the Welch t-test and the two-sided
asymptotic Mann-Whitney U test. -/
def compare_groups (sqrtQ : ℚ → ℚ) (tsf : ℚ → ℚ → ℚ) (normSF : ℚ → ℚ)
    (xs ys : List (Option ℚ)) : ComparisonResult :=
  ⟨ttest_ind_welch sqrtQ tsf (dropna xs) (dropna ys),
   mannwhitneyu sqrtQ normSF (dropna xs) (dropna ys)⟩

/-- Row totals of a contingency table. -/
def rowSums (t : List (List ℚ)) : List ℚ := t.map List.sum

/-- Number of columns of a contingency table (length of the first row). -/
def numCols (t : List (List ℚ)) : ℕ := (t.headD []).length

/-- Total of column j of a contingency table. -/
def colSum (t : List (List ℚ)) (j : ℕ) : ℚ :=
  (t.map (fun row => row.getD j 0)).sum

/-- Column totals of a contingency table. -/
def colSums (t : List (List ℚ)) : List ℚ :=
  (List.range (numCols t)).map (colSum t)

/-- Grand total of a contingency table. -/
def totalSum (t : List (List ℚ)) : ℚ := (rowSums t).sum

/-- Expected counts under independence: expected[i][j] =
rowSum i · colSum j / total (scipy.stats.contingency.expected_freq). -/
def expectedTable (t : List (List ℚ)) : List (List ℚ) :=
  (rowSums t).map (fun r => (colSums t).map (fun c => r * c / totalSum t))

/-- Whether some cell of a table is exactly zero (the check
np.any(expected == 0) inside scipy.stats.chi2_contingency). -/
def tableHasZero (t : List (List ℚ)) : Bool :=
  t.any (fun row => row.any (fun e => decide (e = 0)))

/-- np.sign. -/
def signQ (x : ℚ) : ℚ := if 0 < x then 1 else if x < 0 then -1 else 0

/-- Yates continuity adjustment applied by chi2_contingency when dof = 1:
observed moves toward expected by min(0.5, |expected − observed|), that is
observed + sign(expected − observed)·min(0.5, |expected − observed|)
(scipy caps the magnitude of the correction at the absolute difference). -/
def yatesAdjust (obs expd : List (List ℚ)) : List (List ℚ) :=
  List.zipWith (fun ro re =>
    List.zipWith (fun o e => o + signQ (e - o) * min (1 / 2) |e - o|) ro re)
    obs expd

/-- Pearson chi-square statistic Σ (observed − expected)² / expected. -/
def chi2Stat (obs expd : List (List ℚ)) : ℚ :=
  (List.zipWith (fun ro re =>
    (List.zipWith (fun o e => (o - e) ^ 2 / e) ro re).sum) obs expd).sum

/-- Embedding of scipy.stats.chi2_contingency(observed) with its default
correction=True, as called by analyze_version_differences_v2
(feedback_form_basic_stats.py, line 34), returning the p-value component.
Outcomes: `Except.error ()` embeds the ValueError scipy raises when the
internally computed expected-frequency table has a zero element (which,
for a table with nonzero grand total, happens exactly when a row or
column marginal is zero); `Except.ok none` embeds the NaN p-value of an
all-zero table (its NaN expected counts fail the == 0 test, so no error
is raised); `Except.ok (some p)` is a computed p-value, equal to 1 when
dof = 0 and otherwise chi2.sf(statistic, dof) with the Yates adjustment
at dof = 1.  `chi2sf` embeds the chi-square survival function
(dof, stat) ↦ sf. -/
def chi2_contingency (chi2sf : ℕ → ℚ → ℚ) (obs : List (List ℚ)) :
    Except Unit (Option ℚ) :=
  if totalSum obs = 0 then Except.ok none
  else
    let expd := expectedTable obs
    if tableHasZero expd then Except.error ()
    else
      let dof := (obs.length - 1) * (numCols obs - 1)
      if dof = 0 then Except.ok (some 1)
      else
        let obs2 := if dof = 1 then yatesAdjust obs expd else obs
        Except.ok (some (chi2sf dof (chi2Stat obs2 expd)))

/-- Ascending argsort of a p-value family: the indices 0..k−1 ordered by
their p-values (np.argsort inside statsmodels multipletests; the sorting
algorithm and its tie order are immaterial, see bhStepUp lemmas). -/
def argsortIdx (ps : List ℚ) : List ℕ :=
  List.insertionSort (fun i j => ps.getD i 0 ≤ ps.getD j 0) (List.range ps.length)

/-- The p-value family rearranged ascending, pvals[sortind]. -/
def sortedPs (ps : List ℚ) : List ℚ :=
  (argsortIdx ps).map (fun j => ps.getD j 0)

/-- Embedding of statsmodels multipletests(ps, method="bonferroni")
adjusted p-values (feedback_form_basic_stats.py, line 48): sort, multiply
each p by the family size, clip above at 1, scatter back to the original
order. -/
def multipletests_bonferroni (ps : List ℚ) : List ℚ :=
  let clipped := (sortedPs ps).map (fun p => min (p * (ps.length : ℚ)) 1)
  (List.range ps.length).map (fun i => clipped.getD ((argsortIdx ps).indexOf i) 0)

/-- np.minimum.accumulate with seed a. -/
def npMinAccumFrom (a : ℚ) : List ℚ → List ℚ
  | [] => []
  | x :: xs => min a x :: npMinAccumFrom (min a x) xs

/-- np.minimum.accumulate: running minima of a list. -/
def npMinAccum : List ℚ → List ℚ
  | [] => []
  | x :: xs => x :: npMinAccumFrom x xs

/-- The raw Benjamini-Hochberg corrected values on the ascending-sorted
family: p_(j) · k / (j+1) at zero-based sorted position j
(pvals_sorted / ecdffactor in statsmodels fdrcorrection). -/
def bhRawQ (ps : List ℚ) : List ℚ :=
  (List.range ps.length).map
    (fun j => (sortedPs ps).getD j 0 * (ps.length : ℚ) / ((j : ℚ) + 1))

/-- The monotonized, clipped q-values on the sorted family:
np.minimum.accumulate(raw[::-1])[::-1], then values above 1 set to 1
(statsmodels fdrcorrection). -/
def bhQSorted (ps : List ℚ) : List ℚ :=
  ((npMinAccum (bhRawQ ps).reverse).reverse).map (fun x => min x 1)

/-- Embedding of statsmodels multipletests(ps, method="fdr_bh") q-values
(feedback_form_basic_stats.py, line 51): the sorted q-values scattered
back to the original order. -/
def multipletests_fdr_bh (ps : List ℚ) : List ℚ :=
  (List.range ps.length).map
    (fun i => (bhQSorted ps).getD ((argsortIdx ps).indexOf i) 0)

/-- Minimum of a nonempty list (junk value 0 on []). -/
def minQ : List ℚ → ℚ
  | [] => 0
  | [x] => x
  | x :: y :: t => min x (minQ (y :: t))

/-- List of suffix minima: entry j is the minimum of the elements from
position j on.  Bridge between np.minimum.accumulate on the reversed list
and the step-up minimum of the spec. -/
def suffixMins : List ℚ → List ℚ
  | [] => []
  | x :: xs => minQ (x :: xs) :: suffixMins xs

/-- The step-up definition of the Benjamini-Hochberg q-value exactly as
the spec words it (section 4.5): q[i] = min over j ≥ i of
raw_p[(j)] · k / j computed on the ascending-sorted p-values and mapped
back to the original position.  Stated independently of the embedding
above, for comparison. -/
def bhStepUpSpec (ps : List ℚ) (i : ℕ) : ℚ :=
  let sorted := List.insertionSort (· ≤ ·) ps
  let rank := (argsortIdx ps).indexOf i
  minQ (((List.range ps.length).drop rank).map
    (fun j => sorted.getD j 0 * (ps.length : ℚ) / ((j : ℚ) + 1)))

/-- Embedding of the per-question significance decision of
analyze_version_differences_v2 (feedback_form_basic_stats.py,
lines 82-87): significant after Bonferroni if p_bonferroni < 0.05, else
significant after FDR if q_fdr < 0.05, else not significant.  The
threshold 0.05 (= 1/20) is the scripts hard-coded global alpha. -/
def significanceVerdict (pBonferroni qFdr : ℚ) : Bool :=
  if pBonferroni < 1 / 20 then true
  else if qFdr < 1 / 20 then true
  else false

/-- The verdict of item i of a corrected family: the decision rule applied
to the Bonferroni-adjusted p-value and BH-FDR q-value at index i. -/
def familyVerdict (ps : List ℚ) (i : ℕ) : Bool :=
  significanceVerdict ((multipletests_bonferroni ps).getD i 0)
    ((multipletests_fdr_bh ps).getD i 0)

/-- The Hedges g formula exactly as the spec words it (section 4.3):
pooled_sd = sqrt(((n1−1)·var1 + (n2−1)·var2) / (n1+n2−2));
d = (mean1 − mean2) / pooled_sd; j = 1 − 3/(4·(n1+n2)−9); g = d·j.
Stated independently of the embedding above, for comparison. -/
def hedgesGSpec (sqrtQ : ℚ → ℚ) (s1 s2 : List ℚ) : ℚ :=
  let n1 : ℚ := s1.length
  let n2 : ℚ := s2.length
  let pooled_sd := sqrtQ (((n1 - 1) * varQ s1 + (n2 - 1) * varQ s2) / (n1 + n2 - 2))
  let d := (meanQ s1 - meanQ s2) / pooled_sd
  let j := 1 - 3 / (4 * (n1 + n2) - 9)
  d * j

/-- Glass delta formula as the spec words it (section 4.3):
(mean1 − mean2) / sd1, with group A as the reference scale. -/
def glassDeltaSpec (sqrtQ : ℚ → ℚ) (s1 s2 : List ℚ) : ℚ :=
  (meanQ s1 - meanQ s2) / sqrtQ (varQ s1)

/-- Welch-Satterthwaite mean-difference CI formula as the spec words it
(section 4.3). -/
def meanDiffCI95Spec (sqrtQ tppf : ℚ → ℚ) (s1 s2 : List ℚ) : ℚ × ℚ :=
  let n1 : ℚ := s1.length
  let n2 : ℚ := s2.length
  let v1 := varQ s1
  let v2 := varQ s2
  let se := sqrtQ (v1 / n1 + v2 / n2)
  let df := (v1 / n1 + v2 / n2) ^ 2 /
    (v1 ^ 2 / (n1 ^ 2 * (n1 - 1)) + v2 ^ 2 / (n2 ^ 2 * (n2 - 1)))
  let md := meanQ s1 - meanQ s2
  (md - tppf df * se, md + tppf df * se)

lemma seriesMean_of_ne_nil {s : List ℚ} (h : s.length ≠ 0) :
    seriesMean s = some (meanQ s) := by
  simp [seriesMean, h]

lemma seriesVar_of_two_le {s : List ℚ} (h : 2 ≤ s.length) :
    seriesVar s = some (varQ s) := by
  simp [seriesVar, Nat.not_lt.mpr h]

lemma seriesVar_of_lt_two {s : List ℚ} (h : s.length < 2) :
    seriesVar s = none := by
  simp [seriesVar, h]

lemma effects_fields_of_two_le (sqrtQ tppf : ℚ → ℚ) (xs ys : List (Option ℚ))
    (h1 : 2 ≤ (dropna xs).length) (h2 : 2 ≤ (dropna ys).length) :
    calculate_mean_difference_effects sqrtQ tppf xs ys =
      ⟨some (hedgesGSpec sqrtQ (dropna xs) (dropna ys)),
       some (glassDeltaSpec sqrtQ (dropna xs) (dropna ys)),
       some (meanDiffCI95Spec sqrtQ tppf (dropna xs) (dropna ys))⟩ := by
  have e1 : (dropna xs).length ≠ 0 := by omega
  have e2 : (dropna ys).length ≠ 0 := by omega
  simp only [calculate_mean_difference_effects,
    seriesMean_of_ne_nil e1, seriesMean_of_ne_nil e2,
    seriesVar_of_two_le h1, seriesVar_of_two_le h2, Option.some_bind]
  rfl

lemma hedgesGSpec_antisymm (sqrtQ : ℚ → ℚ) (s1 s2 : List ℚ) :
    hedgesGSpec sqrtQ s1 s2 = -hedgesGSpec sqrtQ s2 s1 := by
  have h : (((s2.length : ℚ) - 1) * varQ s2 + ((s1.length : ℚ) - 1) * varQ s1) /
      ((s2.length : ℚ) + (s1.length : ℚ) - 2) =
      (((s1.length : ℚ) - 1) * varQ s1 + ((s2.length : ℚ) - 1) * varQ s2) /
      ((s1.length : ℚ) + (s2.length : ℚ) - 2) := by
    ring
  simp only [hedgesGSpec]
  rw [h]
  ring

lemma effects_hedges_g_none (sqrtQ tppf : ℚ → ℚ) (xs ys : List (Option ℚ))
    (h : (dropna xs).length < 2 ∨ (dropna ys).length < 2) :
    (calculate_mean_difference_effects sqrtQ tppf xs ys).hedges_g = none := by
  simp only [calculate_mean_difference_effects]
  rcases h with h | h
  · have hv := seriesVar_of_lt_two h
    cases hm1 : seriesMean (dropna xs) <;> cases hm2 : seriesMean (dropna ys) <;>
      simp [hm1, hm2, hv]
  · have hv := seriesVar_of_lt_two h
    cases hm1 : seriesMean (dropna xs) <;> cases hm2 : seriesMean (dropna ys) <;>
      cases hv1 : seriesVar (dropna xs) <;> simp [hm1, hm2, hv1, hv]

lemma effects_ci_none (sqrtQ tppf : ℚ → ℚ) (xs ys : List (Option ℚ))
    (h : (dropna xs).length < 2 ∨ (dropna ys).length < 2) :
    (calculate_mean_difference_effects sqrtQ tppf xs ys).mean_diff_ci_95 = none := by
  simp only [calculate_mean_difference_effects]
  rcases h with h | h
  · have hv := seriesVar_of_lt_two h
    cases hm1 : seriesMean (dropna xs) <;> cases hm2 : seriesMean (dropna ys) <;>
      simp [hm1, hm2, hv]
  · have hv := seriesVar_of_lt_two h
    cases hm1 : seriesMean (dropna xs) <;> cases hm2 : seriesMean (dropna ys) <;>
      cases hv1 : seriesVar (dropna xs) <;> simp [hm1, hm2, hv1, hv]

/-- C1: for every pair of input samples in which each group has at least
one valid (numeric, non-missing) observation after coercion,
compare_groups returns a defined two-sided Mann-Whitney U p-value computed
by the asymptotic normal approximation; and when a group has no valid
observation the Mann-Whitney p-value is the explicit undefined value
`none` (no fault: the embedded function is total). -/
theorem compare_groups_mwu_defined_iff_nonempty (sqrtQ : ℚ → ℚ)
    (tsf : ℚ → ℚ → ℚ) (normSF : ℚ → ℚ) (xs ys : List (Option ℚ)) :
    (dropna xs ≠ [] → dropna ys ≠ [] →
      (compare_groups sqrtQ tsf normSF xs ys).mwu_p_value =
        some (mannwhitneyuAsymP sqrtQ normSF (dropna xs) (dropna ys))) ∧
    (dropna xs = [] ∨ dropna ys = [] →
      (compare_groups sqrtQ tsf normSF xs ys).mwu_p_value = none) := by
  constructor
  · intro h1 h2
    simp [compare_groups, mannwhitneyu, List.length_eq_zero, h1, h2]
  · intro h
    rcases h with h | h <;>
      simp [compare_groups, mannwhitneyu, List.length_eq_zero, h]

/-- Witness for C1 at a concrete input with one valid observation per
group. -/
theorem compare_groups_mwu_defined_iff_nonempty_witness :
    (compare_groups id (fun _ _ => 0) id [some 1, none] [some 2]).mwu_p_value =
      some (mannwhitneyuAsymP id id (dropna [some 1, none]) (dropna [some 2])) :=
  (compare_groups_mwu_defined_iff_nonempty id (fun _ _ => 0) id
    [some 1, none] [some 2]).1 (by decide) (by decide)

/-- C3: for every input sample whose count of valid values after numeric
coercion is n < 2, calculate_descriptive_stats returns the correct n and
the undefined value `none` (embedding np.nan) for every other field, and
raises no exception (the embedded function is total). -/
theorem descriptive_stats_small_n_undefined (sqrtQ tppf : ℚ → ℚ)
    (xs : List (Option ℚ)) (h : (dropna xs).length < 2) :
    calculate_descriptive_stats sqrtQ tppf xs =
      ⟨(dropna xs).length, none, none, none, none, none, none, none⟩ := by
  simp only [calculate_descriptive_stats]
  rw [if_pos h]

/-- Witness for C3 at a sample with one valid and one missing value. -/
theorem descriptive_stats_small_n_undefined_witness :
    calculate_descriptive_stats id id [some 3, none] =
      ⟨(dropna [some 3, none]).length, none, none, none, none, none, none, none⟩ :=
  descriptive_stats_small_n_undefined id id [some 3, none] (by decide)

/-- C7: for every pair of samples with at least 2 valid values each,
calculate_mean_difference_effects computes Hedges g exactly by the
spec formula: pooled_sd = sqrt(((n1−1)var1 + (n2−1)var2)/(n1+n2−2)) with
Bessel-corrected variances, d = (mean1 − mean2)/pooled_sd,
j = 1 − 3/(4(n1+n2)−9), g = d·j, with the (groupA − groupB) sign
convention. -/
theorem effects_hedges_g_matches_spec_formula (sqrtQ tppf : ℚ → ℚ)
    (xs ys : List (Option ℚ)) (h1 : 2 ≤ (dropna xs).length)
    (h2 : 2 ≤ (dropna ys).length) :
    (calculate_mean_difference_effects sqrtQ tppf xs ys).hedges_g =
      some (hedgesGSpec sqrtQ (dropna xs) (dropna ys)) := by
  rw [effects_fields_of_two_le sqrtQ tppf xs ys h1 h2]

/-- Witness for C7 at the spec scenario samples A=[10,12,11,13,9],
B=[20,18,19,17,21]. -/
theorem effects_hedges_g_matches_spec_formula_witness :
    (calculate_mean_difference_effects id id
      [some 10, some 12, some 11, some 13, some 9]
      [some 20, some 18, some 19, some 17, some 21]).hedges_g =
      some (hedgesGSpec id
        (dropna [some 10, some 12, some 11, some 13, some 9])
        (dropna [some 20, some 18, some 19, some 17, some 21])) :=
  effects_hedges_g_matches_spec_formula id id _ _ (by decide) (by decide)

/-- C8: for all samples A and B with at least 2 valid values each,
swapping the argument order of calculate_mean_difference_effects flips the
sign of Hedges g while preserving its absolute value. -/
theorem effects_hedges_g_antisymmetric (sqrtQ tppf : ℚ → ℚ)
    (xs ys : List (Option ℚ)) (h1 : 2 ≤ (dropna xs).length)
    (h2 : 2 ≤ (dropna ys).length) :
    (calculate_mean_difference_effects sqrtQ tppf xs ys).hedges_g =
      ((calculate_mean_difference_effects sqrtQ tppf ys xs).hedges_g).map
        (fun g => -g) ∧
    ((calculate_mean_difference_effects sqrtQ tppf xs ys).hedges_g).map
        (fun g => |g|) =
      ((calculate_mean_difference_effects sqrtQ tppf ys xs).hedges_g).map
        (fun g => |g|) := by
  rw [effects_fields_of_two_le sqrtQ tppf xs ys h1 h2,
    effects_fields_of_two_le sqrtQ tppf ys xs h2 h1]
  refine ⟨?_, ?_⟩ <;>
    simp [hedgesGSpec_antisymm sqrtQ (dropna xs) (dropna ys), abs_neg]

/-- Witness for C8 at concrete samples with n = 2 each. -/
theorem effects_hedges_g_antisymmetric_witness :
    (calculate_mean_difference_effects id id [some 1, some 2]
        [some 5, some 9]).hedges_g =
      ((calculate_mean_difference_effects id id [some 5, some 9]
        [some 1, some 2]).hedges_g).map (fun g => -g) ∧
    ((calculate_mean_difference_effects id id [some 1, some 2]
        [some 5, some 9]).hedges_g).map (fun g => |g|) =
      ((calculate_mean_difference_effects id id [some 5, some 9]
        [some 1, some 2]).hedges_g).map (fun g => |g|) :=
  effects_hedges_g_antisymmetric id id _ _ (by decide) (by decide)

/-- Counterexample to C9 as stated: with group A = [0, 2] (n = 2) and
group B = [5] (n = 1 < 2), calculate_mean_difference_effects returns a
DEFINED Glass delta — the claim says every field, glass_delta included,
is undefined whenever either group has fewer than 2 valid values. -/
theorem effects_glass_delta_defined_counterexample :
    ((calculate_mean_difference_effects id id [some 0, some 2]
      [some 5]).glass_delta).isSome = true := by
  rfl

/-- C9 (amended): for every pair of input samples in which either group
has fewer than 2 valid values after coercion,
calculate_mean_difference_effects yields no fault (it is total) and an
undefined hedges_g and an undefined mean-difference CI; glass_delta is
dropped from the list of necessarily undefined fields, since it can be
defined in that regime (see the counterexample). -/
theorem effects_small_n_fields_undefined (sqrtQ tppf : ℚ → ℚ)
    (xs ys : List (Option ℚ))
    (h : (dropna xs).length < 2 ∨ (dropna ys).length < 2) :
    (calculate_mean_difference_effects sqrtQ tppf xs ys).hedges_g = none ∧
    (calculate_mean_difference_effects sqrtQ tppf xs ys).mean_diff_ci_95 =
      none :=
  ⟨effects_hedges_g_none sqrtQ tppf xs ys h,
    effects_ci_none sqrtQ tppf xs ys h⟩

/-- Witness for C9 (amended) at A = [1] (n = 1 < 2), B = [2, 3]. -/
theorem effects_small_n_fields_undefined_witness :
    (calculate_mean_difference_effects id id [some 1] [some 2, some 3]).hedges_g
        = none ∧
    (calculate_mean_difference_effects id id [some 1]
        [some 2, some 3]).mean_diff_ci_95 = none :=
  effects_small_n_fields_undefined id id [some 1] [some 2, some 3]
    (Or.inl (by decide))

lemma tableHasZero_of_mem {t : List (List ℚ)} {row : List ℚ} {e : ℚ}
    (hrow : row ∈ t) (he : e ∈ row) (hz : e = 0) : tableHasZero t = true := by
  simp only [tableHasZero, List.any_eq_true, decide_eq_true_eq]
  exact ⟨row, hrow, e, he, hz⟩

/-- Counterexample to C2 as stated: the contingency table [[1,0],[2,0]]
has a category (second column) with zero count in both groups; the
embedded chi2_contingency ABORTS on it with the error outcome (the
ValueError scipy raises on a zero expected frequency), contradicting the
claim that the computation does not crash and is not aborted. -/
theorem chi2_zero_column_aborts_counterexample :
    chi2_contingency (fun _ _ => 0) [[1, 0], [2, 0]] = Except.error () := by
  norm_num [chi2_contingency, totalSum, rowSums, colSums, colSum, numCols,
    expectedTable, tableHasZero]
  intro h
  exact absurd (by norm_num) (h 1 (by norm_num))

/-- C2 (amended): for every contingency table with at least one row, at
least one column and nonzero grand total, in which some row or some
column sums to zero, chi2_contingency signals the degeneracy as a
distinct error outcome — the raised ValueError of the scipy call — and
returns no (fabricated) p-value; a category with zero count in both
groups therefore ABORTS the chi-square computation with that error
(inside analyze_version_differences_v2 this cannot fire, because
pd.crosstab only emits categories that occur in the data). -/
theorem chi2_zero_marginal_errors (chi2sf : ℕ → ℚ → ℚ) (obs : List (List ℚ))
    (hne : obs ≠ []) (hc : 0 < numCols obs) (hN : totalSum obs ≠ 0)
    (hdeg : (∃ r ∈ rowSums obs, r = 0) ∨
      (∃ j, j < numCols obs ∧ colSum obs j = 0)) :
    chi2_contingency chi2sf obs = Except.error () := by
  have hz : tableHasZero (expectedTable obs) = true := by
    rcases hdeg with ⟨r, hr, hr0⟩ | ⟨j, hj, hj0⟩
    · have hrow : (colSums obs).map (fun c => r * c / totalSum obs) ∈
          expectedTable obs := List.mem_map_of_mem _ hr
      have hcs : colSums obs ≠ [] := by
        simp only [colSums]
        intro hcontr
        have := congrArg List.length hcontr
        simp at this
        omega
      obtain ⟨c0, hc0⟩ := List.exists_mem_of_ne_nil _ hcs
      refine tableHasZero_of_mem hrow (List.mem_map_of_mem _ hc0) ?_
      rw [hr0]
      ring
    · have hrs : rowSums obs ≠ [] := by
        simp only [rowSums]
        intro hcontr
        exact hne (List.map_eq_nil_iff.mp hcontr)
      obtain ⟨r0, hr0⟩ := List.exists_mem_of_ne_nil _ hrs
      have hrow : (colSums obs).map (fun c => r0 * c / totalSum obs) ∈
          expectedTable obs := List.mem_map_of_mem _ hr0
      have hcj : colSum obs j ∈ colSums obs := by
        simp only [colSums]
        exact List.mem_map_of_mem _ (List.mem_range.mpr hj)
      refine tableHasZero_of_mem hrow (List.mem_map_of_mem _ hcj) ?_
      rw [hj0]
      ring
  simp only [chi2_contingency]
  rw [if_neg hN, if_pos hz]

/-- Witness for C2 (amended) at the table [[1,2],[0,0]], whose second row
sums to zero. -/
theorem chi2_zero_marginal_errors_witness :
    chi2_contingency (fun _ _ => 0) [[1, 2], [0, 0]] = Except.error () :=
  chi2_zero_marginal_errors (fun _ _ => 0) [[1, 2], [0, 0]] (by decide)
    (by decide) (by norm_num [totalSum, rowSums])
    (Or.inl ⟨0, by norm_num [rowSums], rfl⟩)

lemma minQ_cons_of_ne_nil {xs : List ℚ} (h : xs ≠ []) (x : ℚ) :
    minQ (x :: xs) = min x (minQ xs) := by
  cases xs with
  | nil => exact absurd rfl h
  | cons y t => rfl

lemma minQ_le_getD (l : List ℚ) (j : ℕ) (h : j < l.length) :
    minQ l ≤ l.getD j 0 := by
  induction l generalizing j with
  | nil => simp at h
  | cons x xs ih =>
    cases j with
    | zero =>
      cases xs with
      | nil => exact le_refl x
      | cons y t => exact min_le_left _ _
    | succ j =>
      have hj : j < xs.length := by simpa using h
      cases xs with
      | nil => simp at hj
      | cons y t =>
        calc minQ (x :: y :: t) ≤ minQ (y :: t) := min_le_right _ _
          _ ≤ (y :: t).getD j 0 := ih j hj

lemma foldl_min_eq_minQ (xs : List ℚ) (x : ℚ) : xs.foldl min x = minQ (x :: xs) := by
  induction xs generalizing x with
  | nil => rfl
  | cons y t ih =>
    rw [List.foldl_cons, ih (min x y)]
    cases t with
    | nil => rfl
    | cons w u =>
      show min (min x y) (minQ (w :: u)) = min x (min y (minQ (w :: u)))
      rw [min_assoc]

lemma npMinAccumFrom_append (a y : ℚ) (l : List ℚ) :
    npMinAccumFrom a (l ++ [y]) = npMinAccumFrom a l ++ [min (l.foldl min a) y] := by
  induction l generalizing a with
  | nil => rfl
  | cons x xs ih =>
    show min a x :: npMinAccumFrom (min a x) (xs ++ [y]) =
      (min a x :: npMinAccumFrom (min a x) xs) ++ [min (xs.foldl min (min a x)) y]
    rw [ih (min a x)]
    rfl

lemma npMinAccum_append_of_ne_nil {l : List ℚ} (h : l ≠ []) (y : ℚ) :
    npMinAccum (l ++ [y]) = npMinAccum l ++ [min (minQ l) y] := by
  cases l with
  | nil => exact absurd rfl h
  | cons x xs =>
    simp only [List.cons_append, npMinAccum, npMinAccumFrom_append,
      foldl_min_eq_minQ]

lemma minQ_append_singleton {l : List ℚ} (h : l ≠ []) (y : ℚ) :
    minQ (l ++ [y]) = min (minQ l) y := by
  induction l with
  | nil => exact absurd rfl h
  | cons x xs ih =>
    cases xs with
    | nil => rfl
    | cons z t =>
      have hne : (z :: t) ++ [y] ≠ [] := by simp
      calc minQ (x :: ((z :: t) ++ [y]))
          = min x (minQ ((z :: t) ++ [y])) := minQ_cons_of_ne_nil hne x
        _ = min x (min (minQ (z :: t)) y) := by rw [ih (by simp)]
        _ = min (min x (minQ (z :: t))) y := by rw [min_assoc]
        _ = min (minQ (x :: z :: t)) y := rfl

lemma minQ_reverse (l : List ℚ) : minQ l.reverse = minQ l := by
  induction l with
  | nil => rfl
  | cons x xs ih =>
    cases hxs : xs with
    | nil => rfl
    | cons y t =>
      rw [List.reverse_cons,
        minQ_append_singleton (by simp [hxs]) x, ← hxs, ih,
        minQ_cons_of_ne_nil (by simp [hxs]) x, min_comm]

lemma npMinAccum_reverse_eq_suffixMins (l : List ℚ) :
    (npMinAccum l.reverse).reverse = suffixMins l := by
  induction l with
  | nil => rfl
  | cons x xs ih =>
    cases hxs : xs with
    | nil => rfl
    | cons y t =>
      have hne : xs ≠ [] := by simp [hxs]
      rw [List.reverse_cons,
        npMinAccum_append_of_ne_nil (by simp [hxs]) x,
        List.reverse_append, List.reverse_singleton, List.singleton_append,
        ← hxs, ih, minQ_reverse]
      show min (minQ xs) x :: suffixMins xs = minQ (x :: xs) :: suffixMins xs
      rw [minQ_cons_of_ne_nil hne x, min_comm]

lemma suffixMins_length (l : List ℚ) : (suffixMins l).length = l.length := by
  induction l with
  | nil => rfl
  | cons x xs ih => simp [suffixMins, ih]

lemma suffixMins_getD (l : List ℚ) (j : ℕ) (h : j < l.length) :
    (suffixMins l).getD j 0 = minQ (l.drop j) := by
  induction l generalizing j with
  | nil => simp at h
  | cons x xs ih =>
    cases j with
    | zero => rfl
    | succ j =>
      have hj : j < xs.length := by simpa using h
      show (suffixMins xs).getD j 0 = minQ (xs.drop j)
      exact ih j hj

lemma minQ_drop_mono (l : List ℚ) (a b : ℕ) (hab : a ≤ b) (hb : b < l.length) :
    minQ (l.drop a) ≤ minQ (l.drop b) := by
  induction b, hab using Nat.le_induction with
  | base => exact le_rfl
  | succ b hab ih =>
    have hb' : b < l.length := Nat.lt_of_succ_lt hb
    refine le_trans (ih hb') ?_
    rw [List.drop_eq_getElem_cons hb',
      minQ_cons_of_ne_nil (by rw [ne_eq, List.drop_eq_nil_iff]; omega) _]
    exact min_le_right _ _

lemma argsortIdx_perm (ps : List ℚ) :
    (argsortIdx ps).Perm (List.range ps.length) :=
  List.perm_insertionSort _ _

lemma argsortIdx_length (ps : List ℚ) :
    (argsortIdx ps).length = ps.length := by
  rw [(argsortIdx_perm ps).length_eq, List.length_range]

lemma mem_argsortIdx {ps : List ℚ} {i : ℕ} (h : i < ps.length) :
    i ∈ argsortIdx ps :=
  (argsortIdx_perm ps).mem_iff.mpr (List.mem_range.mpr h)

lemma argsortIdx_nodup (ps : List ℚ) : (argsortIdx ps).Nodup :=
  (argsortIdx_perm ps).nodup_iff.mpr (List.nodup_range _)

lemma rank_lt {ps : List ℚ} {i : ℕ} (h : i < ps.length) :
    (argsortIdx ps).indexOf i < ps.length := by
  rw [← argsortIdx_length ps]
  exact List.indexOf_lt_length.mpr (mem_argsortIdx h)

lemma argsortIdx_getD_indexOf {ps : List ℚ} {i : ℕ} (h : i < ps.length) :
    (argsortIdx ps).getD ((argsortIdx ps).indexOf i) 0 = i := by
  have hlt : (argsortIdx ps).indexOf i < (argsortIdx ps).length :=
    List.indexOf_lt_length.mpr (mem_argsortIdx h)
  rw [List.getD_eq_getElem _ _ hlt]
  exact ((List.get_eq_getElem _ ⟨_, hlt⟩).symm).trans (List.indexOf_get hlt)

lemma sortedPs_length (ps : List ℚ) : (sortedPs ps).length = ps.length := by
  rw [sortedPs, List.length_map, argsortIdx_length]

lemma sortedPs_sorted (ps : List ℚ) : List.Sorted (· ≤ ·) (sortedPs ps) := by
  haveI h1 : IsTotal ℕ (fun i j => ps.getD i 0 ≤ ps.getD j 0) :=
    ⟨fun a b => le_total _ _⟩
  haveI h2 : IsTrans ℕ (fun i j => ps.getD i 0 ≤ ps.getD j 0) :=
    ⟨fun _ _ _ hab hbc => le_trans hab hbc⟩
  exact List.pairwise_map.mpr
    (List.sorted_insertionSort (fun i j => ps.getD i 0 ≤ ps.getD j 0) _)

lemma map_getD_range (l : List ℚ) :
    (List.range l.length).map (fun i => l.getD i 0) = l := by
  apply List.ext_getElem
  · simp
  · intro n h1 h2
    simp only [List.getElem_map, List.getElem_range,
      List.getD_eq_getElem _ _ h2]

lemma sortedPs_perm (ps : List ℚ) : (sortedPs ps).Perm ps := by
  have h1 := (argsortIdx_perm ps).map (fun i => ps.getD i 0)
  rwa [map_getD_range] at h1

lemma sortedPs_eq_insertionSort (ps : List ℚ) :
    sortedPs ps = List.insertionSort (· ≤ ·) ps := by
  refine List.eq_of_perm_of_sorted ?_ (sortedPs_sorted ps) ?_
  · exact (sortedPs_perm ps).trans (List.perm_insertionSort _ _).symm
  · exact List.sorted_insertionSort _ _

lemma sortedPs_getD_rank {ps : List ℚ} {i : ℕ} (h : i < ps.length) :
    (sortedPs ps).getD ((argsortIdx ps).indexOf i) 0 = ps.getD i 0 := by
  have hr : (argsortIdx ps).indexOf i < (argsortIdx ps).length :=
    List.indexOf_lt_length.mpr (mem_argsortIdx h)
  rw [sortedPs, List.getD_eq_getElem _ _ (by simpa using hr), List.getElem_map,
    ← List.getD_eq_getElem (argsortIdx ps) 0 hr, argsortIdx_getD_indexOf h]

lemma sortedPs_bounds {ps : List ℚ} (hp : ∀ p ∈ ps, 0 ≤ p ∧ p ≤ 1) {j : ℕ}
    (h : j < ps.length) :
    0 ≤ (sortedPs ps).getD j 0 ∧ (sortedPs ps).getD j 0 ≤ 1 := by
  have hj : j < (sortedPs ps).length := by rwa [sortedPs_length]
  have hm : (sortedPs ps).getD j 0 ∈ sortedPs ps := by
    rw [List.getD_eq_getElem _ _ hj]
    exact List.getElem_mem hj
  exact hp _ ((sortedPs_perm ps).mem_iff.mp hm)

lemma bhRawQ_length (ps : List ℚ) : (bhRawQ ps).length = ps.length := by
  rw [bhRawQ, List.length_map, List.length_range]

lemma bhRawQ_getD {ps : List ℚ} {j : ℕ} (h : j < ps.length) :
    (bhRawQ ps).getD j 0 =
      (sortedPs ps).getD j 0 * (ps.length : ℚ) / ((j : ℚ) + 1) := by
  have hj : j < (bhRawQ ps).length := by rwa [bhRawQ_length]
  rw [bhRawQ] at hj ⊢
  rw [List.getD_eq_getElem _ _ hj, List.getElem_map, List.getElem_range]

lemma npMinAccumFrom_length (a : ℚ) (l : List ℚ) :
    (npMinAccumFrom a l).length = l.length := by
  induction l generalizing a with
  | nil => rfl
  | cons x xs ih => simp [npMinAccumFrom, ih]

lemma npMinAccum_length (l : List ℚ) : (npMinAccum l).length = l.length := by
  cases l with
  | nil => rfl
  | cons x xs => simp [npMinAccum, npMinAccumFrom_length]

lemma bhQSorted_length (ps : List ℚ) : (bhQSorted ps).length = ps.length := by
  rw [bhQSorted, List.length_map, List.length_reverse, npMinAccum_length,
    List.length_reverse, bhRawQ_length]

lemma bhQSorted_getD {ps : List ℚ} {j : ℕ} (h : j < ps.length) :
    (bhQSorted ps).getD j 0 = min (minQ ((bhRawQ ps).drop j)) 1 := by
  have hL := npMinAccum_reverse_eq_suffixMins (bhRawQ ps)
  have hj2 : j < (bhRawQ ps).length := by rwa [bhRawQ_length]
  have hj3 : j < (suffixMins (bhRawQ ps)).length := by rwa [suffixMins_length]
  have hj4 : j < ((suffixMins (bhRawQ ps)).map (fun x => min x 1)).length := by
    simpa using hj3
  rw [bhQSorted, hL, List.getD_eq_getElem _ _ hj4, List.getElem_map,
    ← List.getD_eq_getElem _ 0 hj3, suffixMins_getD _ _ hj2]

lemma fdr_getD_eq {ps : List ℚ} {i : ℕ} (hi : i < ps.length) :
    (multipletests_fdr_bh ps).getD i 0 =
      min (minQ ((bhRawQ ps).drop ((argsortIdx ps).indexOf i))) 1 := by
  have hr := rank_lt hi
  have hlen : i < ((List.range ps.length).map
      (fun i => (bhQSorted ps).getD ((argsortIdx ps).indexOf i) 0)).length := by
    simpa using hi
  rw [multipletests_fdr_bh, List.getD_eq_getElem _ _ hlen, List.getElem_map,
    List.getElem_range, bhQSorted_getD hr]

lemma bonferroni_getD_eq {ps : List ℚ} {i : ℕ} (hi : i < ps.length) :
    (multipletests_bonferroni ps).getD i 0 =
      min (ps.getD i 0 * (ps.length : ℚ)) 1 := by
  have hr : (argsortIdx ps).indexOf i < (sortedPs ps).length := by
    rw [sortedPs_length]
    exact rank_lt hi
  have hr2 : (argsortIdx ps).indexOf i <
      ((sortedPs ps).map (fun p => min (p * (ps.length : ℚ)) 1)).length := by
    simpa using hr
  have hlen : i < ((List.range ps.length).map (fun i =>
      ((sortedPs ps).map (fun p => min (p * (ps.length : ℚ)) 1)).getD
        ((argsortIdx ps).indexOf i) 0)).length := by
    simpa using hi
  rw [multipletests_bonferroni]
  rw [List.getD_eq_getElem _ _ hlen, List.getElem_map, List.getElem_range,
    List.getD_eq_getElem _ _ hr2, List.getElem_map,
    ← List.getD_eq_getElem _ 0 hr, sortedPs_getD_rank hi]

lemma minQ_drop_bhRawQ_le_one {ps : List ℚ} (hp : ∀ p ∈ ps, 0 ≤ p ∧ p ≤ 1)
    {j : ℕ} (h : j < ps.length) : minQ ((bhRawQ ps).drop j) ≤ 1 := by
  have hlen := bhRawQ_length ps
  have hlast : ps.length - 1 < ps.length := by omega
  have hdroplen : ps.length - 1 - j < ((bhRawQ ps).drop j).length := by
    rw [List.length_drop, hlen]
    omega
  have h1 : minQ ((bhRawQ ps).drop j) ≤
      ((bhRawQ ps).drop j).getD (ps.length - 1 - j) 0 :=
    minQ_le_getD _ _ hdroplen
  have h2 : ((bhRawQ ps).drop j).getD (ps.length - 1 - j) 0 =
      (bhRawQ ps).getD (j + (ps.length - 1 - j)) 0 := by
    rw [List.getD_eq_getElem _ _ hdroplen, List.getElem_drop,
      List.getD_eq_getElem _ 0 (by rw [hlen]; omega)]
  have hidx : j + (ps.length - 1 - j) = ps.length - 1 := by omega
  rw [hidx] at h2
  have hcast : ((ps.length - 1 : ℕ) : ℚ) + 1 = (ps.length : ℚ) := by
    have h1le : 1 ≤ ps.length := by omega
    push_cast [Nat.cast_sub h1le]
    ring
  have hk : (ps.length : ℚ) ≠ 0 := Nat.cast_ne_zero.mpr (by omega)
  have h3 : (bhRawQ ps).getD (ps.length - 1) 0 =
      (sortedPs ps).getD (ps.length - 1) 0 := by
    rw [bhRawQ_getD hlast, hcast, mul_div_assoc, div_self hk, mul_one]
  calc minQ ((bhRawQ ps).drop j)
      ≤ ((bhRawQ ps).drop j).getD (ps.length - 1 - j) 0 := h1
    _ = (sortedPs ps).getD (ps.length - 1) 0 := by rw [h2, h3]
    _ ≤ 1 := (sortedPs_bounds hp hlast).2

/-- C4: for every family of k raw p-values each in [0,1] and every index
i, the Bonferroni-adjusted p-value of the embedded multipletests
corrector equals min(1, raw_p[i]·k); consequently it is at least the raw
p-value and at most 1. -/
theorem bonferroni_adjusted_correct (ps : List ℚ)
    (hp : ∀ p ∈ ps, 0 ≤ p ∧ p ≤ 1) (i : ℕ) (hi : i < ps.length) :
    (multipletests_bonferroni ps).getD i 0 =
      min 1 (ps.getD i 0 * (ps.length : ℚ)) ∧
    ps.getD i 0 ≤ (multipletests_bonferroni ps).getD i 0 ∧
    (multipletests_bonferroni ps).getD i 0 ≤ 1 := by
  have hb := bonferroni_getD_eq hi
  have hmem : ps.getD i 0 ∈ ps := by
    rw [List.getD_eq_getElem _ _ hi]
    exact List.getElem_mem hi
  obtain ⟨hp0, hp1⟩ := hp _ hmem
  refine ⟨by rw [hb, min_comm], ?_, by rw [hb]; exact min_le_right _ _⟩
  rw [hb]
  refine le_min (le_mul_of_one_le_right hp0 ?_) hp1
  exact_mod_cast Nat.one_le_iff_ne_zero.mpr (by omega)

/-- Witness for C4 at the family [1, 0], index 0. -/
theorem bonferroni_adjusted_correct_witness :
    (multipletests_bonferroni [1, 0]).getD 0 0 =
      min 1 (([1, 0] : List ℚ).getD 0 0 * (([1, 0] : List ℚ).length : ℚ)) ∧
    ([1, 0] : List ℚ).getD 0 0 ≤ (multipletests_bonferroni [1, 0]).getD 0 0 ∧
    (multipletests_bonferroni [1, 0]).getD 0 0 ≤ 1 :=
  bonferroni_adjusted_correct [1, 0] (by decide) 0 (by decide)

/-- C5: the BH-FDR q-values of the embedded multipletests corrector equal
the spec step-up definition (minimum over j at or above the sorted rank of
p_(j)·k/j on the ascending-sorted p-values, mapped back to the original
position), and the q-values read in ascending p order are non-decreasing. -/
theorem bh_fdr_matches_stepup_spec (ps : List ℚ)
    (hp : ∀ p ∈ ps, 0 ≤ p ∧ p ≤ 1) :
    (∀ i, i < ps.length →
      (multipletests_fdr_bh ps).getD i 0 = bhStepUpSpec ps i) ∧
    (∀ a b, a ≤ b → b < ps.length →
      (bhQSorted ps).getD a 0 ≤ (bhQSorted ps).getD b 0) := by
  constructor
  · intro i hi
    have hrank := rank_lt hi
    rw [fdr_getD_eq hi, min_eq_left (minQ_drop_bhRawQ_le_one hp hrank)]
    simp only [bhStepUpSpec]
    rw [← sortedPs_eq_insertionSort, List.map_drop]
    rfl
  · intro a b hab hb
    have ha : a < ps.length := lt_of_le_of_lt hab hb
    rw [bhQSorted_getD ha, bhQSorted_getD hb]
    exact min_le_min
      (minQ_drop_mono (bhRawQ ps) a b hab (by rw [bhRawQ_length]; exact hb))
      le_rfl

/-- Witness for C5 at the family [1, 0]. -/
theorem bh_fdr_matches_stepup_spec_witness :
    (∀ i, i < ([1, 0] : List ℚ).length →
      (multipletests_fdr_bh [1, 0]).getD i 0 = bhStepUpSpec [1, 0] i) ∧
    (∀ a b, a ≤ b → b < ([1, 0] : List ℚ).length →
      (bhQSorted [1, 0]).getD a 0 ≤ (bhQSorted [1, 0]).getD b 0) :=
  bh_fdr_matches_stepup_spec [1, 0] (by decide)

/-- C6: for every corrected family and every item, the per-item
significance verdict is exactly the chained rule of the script:
significant when the Bonferroni-adjusted p is below alpha = 0.05 (= 1/20),
otherwise significant when the BH-FDR q is below alpha, otherwise not
significant — equivalently, the verdict is true exactly when either
adjusted value is below alpha. -/
theorem significance_verdict_chained_rule (ps : List ℚ) (i : ℕ) :
    (familyVerdict ps i = true ↔
      ((multipletests_bonferroni ps).getD i 0 < 1 / 20 ∨
        (multipletests_fdr_bh ps).getD i 0 < 1 / 20)) := by
  simp only [familyVerdict, significanceVerdict]
  split_ifs with h1 h2
  · exact ⟨fun _ => Or.inl h1, fun _ => rfl⟩
  · exact ⟨fun _ => Or.inr h2, fun _ => rfl⟩
  · refine ⟨fun h3 => h3.elim, fun h3 => ?_⟩
    rcases h3 with h3 | h3
    · exact absurd h3 h1
    · exact absurd h3 h2

/-- C10: for every family of raw p-values in [0,1] and every index, the
BH-FDR q-value is at most the Bonferroni-adjusted p-value at the same
index; whenever the Bonferroni branch of the chained decision rule fires
the FDR branch would fire too, so the chained verdict is equivalent to
testing the q-value against alpha alone. -/
theorem fdr_q_le_bonferroni_p_and_verdict (ps : List ℚ)
    (hp : ∀ p ∈ ps, 0 ≤ p ∧ p ≤ 1) (i : ℕ) (hi : i < ps.length) :
    (multipletests_fdr_bh ps).getD i 0 ≤
      (multipletests_bonferroni ps).getD i 0 ∧
    (familyVerdict ps i = true ↔
      (multipletests_fdr_bh ps).getD i 0 < 1 / 20) := by
  have hrank := rank_lt hi
  have hmem : 0 ≤ ps.getD i 0 := by
    refine (hp _ ?_).1
    rw [List.getD_eq_getElem _ _ hi]
    exact List.getElem_mem hi
  have hle : (multipletests_fdr_bh ps).getD i 0 ≤
      (multipletests_bonferroni ps).getD i 0 := by
    rw [fdr_getD_eq hi, bonferroni_getD_eq hi]
    refine min_le_min ?_ le_rfl
    have hdrop0 : 0 < ((bhRawQ ps).drop ((argsortIdx ps).indexOf i)).length := by
      rw [List.length_drop, bhRawQ_length]
      omega
    have hstep : ((bhRawQ ps).drop ((argsortIdx ps).indexOf i)).getD 0 0 =
        (bhRawQ ps).getD ((argsortIdx ps).indexOf i + 0) 0 := by
      rw [List.getD_eq_getElem _ _ hdrop0, List.getElem_drop,
        List.getD_eq_getElem _ 0 (by rw [bhRawQ_length]; omega)]
    calc minQ ((bhRawQ ps).drop ((argsortIdx ps).indexOf i))
        ≤ ((bhRawQ ps).drop ((argsortIdx ps).indexOf i)).getD 0 0 :=
          minQ_le_getD _ 0 hdrop0
      _ = (bhRawQ ps).getD ((argsortIdx ps).indexOf i) 0 := hstep
      _ = (sortedPs ps).getD ((argsortIdx ps).indexOf i) 0 * (ps.length : ℚ) /
            (((argsortIdx ps).indexOf i : ℚ) + 1) := bhRawQ_getD hrank
      _ = ps.getD i 0 * (ps.length : ℚ) /
            (((argsortIdx ps).indexOf i : ℚ) + 1) := by
          rw [sortedPs_getD_rank hi]
      _ ≤ ps.getD i 0 * (ps.length : ℚ) := by
          refine div_le_self (mul_nonneg hmem (Nat.cast_nonneg _)) ?_
          have hc : (0 : ℚ) ≤ ((argsortIdx ps).indexOf i : ℚ) :=
            Nat.cast_nonneg _
          linarith
  refine ⟨hle, ?_⟩
  simp only [familyVerdict, significanceVerdict]
  split_ifs with h1 h2
  · exact ⟨fun _ => lt_of_le_of_lt hle h1, fun _ => rfl⟩
  · exact ⟨fun _ => h2, fun _ => rfl⟩
  · exact ⟨fun h3 => h3.elim, fun h3 => absurd h3 h2⟩

/-- Witness for C10 at the family [1, 0], index 0. -/
theorem fdr_q_le_bonferroni_p_and_verdict_witness :
    (multipletests_fdr_bh [1, 0]).getD 0 0 ≤
      (multipletests_bonferroni [1, 0]).getD 0 0 ∧
    (familyVerdict [1, 0] 0 = true ↔
      (multipletests_fdr_bh [1, 0]).getD 0 0 < 1 / 20) :=
  fdr_q_le_bonferroni_p_and_verdict [1, 0] (by decide) 0 (by decide)
